import Mathlib

/-
Shallow embedding of the cmake_parser core of the snipe repository
(src/cmake_parser/parsers.rs, structures.rs, lazy_binding.rs, mod.rs).

Modelling conventions:
  * Rust `&str` / `String` values are `Str := List Char`; `chars` converts a
    Lean string literal into this form.
  * `std::collections::HashSet<String>` is a `Finset Str` when it is only ever
    consumed set-wise (`RpTest::sources`, `RpTest::tests`), and a
    duplicate-free `List Str` when the code iterates it to emit one result per
    element (`SourceSet::files`).
  * `std::collections::HashMap` is an association list with overwriting
    insertion (`SMap`); lookups and inserts match HashMap observationally.
  * Rust panics (`panic!`, `assert!`, `expect`, `unwrap`, `todo!`, slice-index
    panics) and nom parse errors are both modelled as `Option` failure: the
    whole parse of the file aborts in either case.
  * Loops of nom combinators are given fuel `input.length + 1`; every
    iteration of the corresponding Rust loop consumes at least one character
    (nom's zero-progress check turns a non-consuming iteration into an
    error), so this fuel is never exhausted on inputs the Rust code accepts.
-/

/-- Characters of a Rust string, as the list the embedding computes with. -/
abbrev Str := List Char

/-- Convert a Lean string literal to the embedding's string representation. -/
def chars (s : String) : Str := s.data

/-- Association map with string keys, modelling `std::collections::HashMap`:
`insert` overwrites the value of an existing key in place and appends a new
key at the end. -/
abbrev SMap (V : Type) := List (Str × V)

/-- HashMap lookup: value of the first (unique) entry with the given key. -/
def SMap.get {V : Type} : SMap V → Str → Option V
  | [], _ => none
  | (k', v) :: rest, k => if k' = k then some v else SMap.get rest k

/-- HashMap insertion: overwrite the entry with this key, or append one. -/
def SMap.insert {V : Type} : SMap V → Str → V → SMap V
  | [], k, v => [(k, v)]
  | (k', v') :: rest, k, v =>
      if k' = k then (k, v) :: rest else (k', v') :: SMap.insert rest k v

/-- Whitespace recognized by nom's `multispace0`/`multispace1`. -/
def isWs (c : Char) : Bool := c = ' ' || c = '\t' || c = '\r' || c = '\n'

/-- nom `multispace0`: drop leading whitespace. -/
def multispace0 (s : Str) : Str := s.dropWhile isWs

/-- nom `multispace1`: require at least one whitespace character, drop the run. -/
def multispace1 (s : Str) : Option Str :=
  match s with
  | c :: t => if isWs c then some ((c :: t).dropWhile isWs) else none
  | [] => none

/-- nom `tag` for a single character (used for the `)` delimiters). -/
def expectChar (c : Char) (s : Str) : Option Str :=
  match s with
  | c' :: t => if c' = c then some t else none
  | [] => none

/-- `nom::character::is_alphanumeric(c as u8)`: the Rust code truncates the
character's code point to its low byte and tests the ASCII alphanumeric
ranges on that byte. -/
def isAlphanumericU8 (c : Char) : Bool :=
  let b := c.toNat % 256
  (0x30 ≤ b && b ≤ 0x39) || (0x41 ≤ b && b ≤ 0x5A) || (0x61 ≤ b && b ≤ 0x7A)

/-- The punctuation allow-list of `parse_identifier` in parsers.rs
(the Rust literal is the string of these eleven characters). -/
def validPunct : List Char := ['#', '$', '{', '}', '_', ':', '.', '\"', '-', '/', '=']

/-- A character an identifier token may contain (`parse_identifier`'s
`take_till` keeps taking while this holds). -/
def identChar (c : Char) : Bool := isAlphanumericU8 c || validPunct.contains c

/-- `parse_identifier` from parsers.rs: longest prefix of identifier
characters, returned as `(remainder, token)`; it never fails and the token
may be empty. -/
def parse_identifier (s : Str) : Str × Str :=
  (s.dropWhile identChar, s.takeWhile identChar)

/-- `parse_substitution` from parsers.rs: `${` then a run of
alphanumeric-or-underscore characters, then `}`; yields `(remainder, name)`. -/
def parse_substitution (s : Str) : Option (Str × Str) :=
  match s with
  | '$' :: '{' :: t =>
      let name := t.takeWhile (fun c => isAlphanumericU8 c || c = '_')
      match t.dropWhile (fun c => isAlphanumericU8 c || c = '_') with
      | '}' :: rem => some (rem, name)
      | _ => none
  | _ => none

/-- The closed tag alternation of `skip_to_next_tag`, fused with
`ParsedTag::from_str`: try each keyword literal of the Rust `alt` in order at
the head of the input. -/
inductive ParsedTag where
  | Set
  | ForEach
  | EndForEach
  | RpTest
  | GetFileNameComponent
  | EOF
deriving DecidableEq, Repr

/-- One step of the `alt` in `skip_to_next_tag`: which keyword literal
matches at the head of the input, and the remainder after it. -/
def tagAt (s : Str) : Option (ParsedTag × Str) :=
  if s.take 4 = chars "set(" then some (.Set, s.drop 4)
  else if s.take 5 = chars "set (" then some (.Set, s.drop 5)
  else if s.take 8 = chars "foreach(" then some (.ForEach, s.drop 8)
  else if s.take 9 = chars "foreach (" then some (.ForEach, s.drop 9)
  else if s.take 12 = chars "endforeach()" then some (.EndForEach, s.drop 12)
  else if s.take 13 = chars "endforeach ()" then some (.EndForEach, s.drop 13)
  else if s.take 8 = chars "rp_test(" then some (.RpTest, s.drop 8)
  else if s.take 9 = chars "rp_test (" then some (.RpTest, s.drop 9)
  else if s.take 23 = chars "get_filename_component(" then
    some (.GetFileNameComponent, s.drop 23)
  else if s.take 24 = chars "get_filename_component (" then
    some (.GetFileNameComponent, s.drop 24)
  else none

/-- `skip_to_next_tag` from parsers.rs: `many_till(drop anychar, known_terms)`
drops characters until one of the known keywords (or end of input, reported
as `EOF`) matches, and returns the remainder after the keyword.  It never
fails: the `eof` alternative catches the empty input before `anychar` runs. -/
def skip_to_next_tag : Str → Str × ParsedTag
  | [] => ([], .EOF)
  | c :: t =>
      match tagAt (c :: t) with
      | some (tg, rem) => (rem, tg)
      | none => skip_to_next_tag t

/-- `TestKind` from structures.rs. -/
inductive TestKind where
  | Unit
  | Fixture
  | Bench
deriving DecidableEq, Repr

/-- `HashSet::from_iter` / `collect::<HashSet<_>>` over a list: keep the
first occurrence of each element.  The Rust set is unordered; this list is
its deduplicated membership in first-occurrence order. -/
def collectSet (l : List Str) : List Str :=
  l.foldl (fun acc x => if x ∈ acc then acc else acc ++ [x]) []

/-- `SourceSet` from structures.rs: a declared named set; `files` is the
deduplicated membership of the Rust `HashSet<String>`. -/
structure SourceSet where
  name : Str
  files : List Str
deriving DecidableEq, Repr

/-- `SourceSet::new` from structures.rs: the first token is the name, the
rest are the members; indexing `keys[0]` panics on an empty token list. -/
def SourceSet.new : List Str → Option SourceSet
  | [] => none
  | name :: rest => some ⟨name, collectSet rest⟩

/-- `RpTest` from structures.rs.  `sources` and `tests` are Rust
`HashSet<String>` fields, embedded as finite sets. -/
structure RpTest where
  name : Str
  sources : Finset Str
  kind : TestKind
  tests : Finset Str
deriving DecidableEq

/-- `ParseContext` from structures.rs: the evaluation context of one parse. -/
structure ParseContext where
  source_sets : SMap SourceSet
  tests : SMap RpTest
deriving DecidableEq

/-- The empty `ParseContext` (`ParseContext::default()`). -/
def ParseContext.empty : ParseContext := ⟨[], []⟩

/-- Rust `str::contains` for a substring pattern. -/
def containsSub : Str → Str → Bool
  | [], pat => pat.isEmpty
  | c :: t, pat => ((c :: t).take pat.length == pat) || containsSub t pat

/-- One step of Rust `str::replace` with fuel: replace non-overlapping
occurrences of `pat` left to right.  All call sites in the source pass a
non-empty pattern; on an empty pattern this returns the input unchanged. -/
def strReplaceGo (pat rep : Str) : Nat → Str → Str
  | 0, s => s
  | _ + 1, [] => []
  | fuel + 1, c :: t =>
      if pat ≠ [] ∧ (c :: t).take pat.length = pat then
        rep ++ strReplaceGo pat rep fuel ((c :: t).drop pat.length)
      else
        c :: strReplaceGo pat rep fuel t

/-- Rust `str::replace(pat, rep)` on `s` (for the non-empty patterns the
source uses): each replacement step consumes at least one character, so fuel
`s.length` is always sufficient. -/
def strReplace (s pat rep : Str) : Str := strReplaceGo pat rep s.length s

/-- The only transform of the dialect, attached by `parse_foreach` to a
`get_filename_component` binding: `|v| v.replace(".Cc", "")`. -/
def stripDotCc (v : Str) : Str := strReplace v (chars ".Cc") []

/-- `BindingValue` from lazy_binding.rs. -/
inductive BindingValue where
  | nothing
  | string (s : Str)
  | indirectBinding (target : Str) (transformer : Str → Str)

/-- `LazyBinding` from lazy_binding.rs: the deferred binding table. -/
structure LazyBinding where
  bindings : SMap BindingValue

/-- The empty binding table (`LazyBinding::default()`). -/
def LazyBinding.empty : LazyBinding := ⟨[]⟩

/-- `LazyBinding::add`: declare a key as known but unset. -/
def LazyBinding.add (b : LazyBinding) (key : Str) : LazyBinding :=
  ⟨b.bindings.insert key .nothing⟩

/-- `LazyBinding::add_transformed`: attach a transform of another key; the
`assert!` that the target is already declared is a fatal failure. -/
def LazyBinding.add_transformed (b : LazyBinding) (key target : Str)
    (f : Str → Str) : Option LazyBinding :=
  if (b.bindings.get target).isSome then
    some ⟨b.bindings.insert key (.indirectBinding target f)⟩
  else none

/-- `LazyBinding::populate`: bind a concrete value; the `assert!` that the
key is already declared is a fatal failure. -/
def LazyBinding.populate (b : LazyBinding) (key val : Str) : Option LazyBinding :=
  if (b.bindings.get key).isSome then
    some ⟨b.bindings.insert key (.string val)⟩
  else none

/-- `LazyBinding::to_map`: materialize every entry.  An unset entry
(`todo!()`) or a derived entry whose target is not a concrete string
(`panic!`) is a fatal failure. -/
def LazyBinding.to_map (b : LazyBinding) : Option (SMap Str) :=
  b.bindings.mapM fun kv =>
    match kv.2 with
    | .nothing => none
    | .string s => some (kv.1, s)
    | .indirectBinding target f =>
        match b.bindings.get target with
        | some (.string s) => some (kv.1, f s)
        | _ => none

/-- Index of the last occurrence of a character in a string. -/
def lastIdxOf (c : Char) : Str → Option Nat
  | [] => none
  | x :: t =>
      match lastIdxOf c t with
      | some i => some (i + 1)
      | none => if x = c then some 0 else none

/-- The scanning loop behind the Rust regex `\$\{.*\}` (`RpTest::eval_name`
in structures.rs), with `find_iter` semantics: leftmost match first, `.`
not matching a newline, `.*` greedy (the match extends to the last `}` on
the line), and scanning resuming after each match.  Returns the matched
variables, i.e. each match stripped of its leading `${` and trailing `}`.
Every step consumes at least one character, so fuel `s.length` suffices. -/
def phFindIterGo : Nat → Str → List Str
  | 0, _ => []
  | _ + 1, [] => []
  | fuel + 1, c :: t =>
      if c = '$' ∧ t.take 1 = ['{'] then
        match lastIdxOf '}' ((t.drop 1).takeWhile (fun x => x ≠ '\n')) with
        | some j =>
            ((t.drop 1).takeWhile (fun x => x ≠ '\n')).take j ::
              phFindIterGo fuel ((t.drop 1).drop (j + 1))
        | none => phFindIterGo fuel t
      else phFindIterGo fuel t

/-- All matched variables of the regex `\$\{.*\}` over a name, in
`find_iter` order. -/
def phFindIter (s : Str) : List Str := phFindIterGo s.length s

/-- The placeholder token `${v}` built from a variable name (the Rust
`format!("${{{var}}}")` in `RpTest::eval_name`). -/
def phTok (v : Str) : Str := '$' :: '{' :: (v ++ ['}'])

/-- `RpTest::eval_name` from structures.rs: collect the regex matches of the
raw name, then for each matched variable replace its `${...}` token by the
bound value; a variable missing from the map is a fatal failure. -/
def RpTest.eval_name (t : RpTest) (vars : SMap Str) : Option Str :=
  (phFindIter t.name).foldlM
    (fun name var => (vars.get var).map fun value => strReplace name (phTok var) value)
    t.name

/-- The whole-token placeholder test used by `eval_source_list` and
`expand_sources`: `src.starts_with("${") && src.ends_with("}")`. -/
def isWholePh (s : Str) : Bool := (s.take 2 == chars "$\x7b") && (s.getLast? == some '}')

/-- The variable name inside a whole-token placeholder:
`src.chars().skip(2).take(src.len() - 3)`. -/
def phVar (s : Str) : Str := (s.drop 2).take (s.length - 3)

/-- One source reference under `RpTest::eval_source_list`: a whole-token
placeholder is looked up in the variable map (missing variable is fatal),
anything else passes through unchanged. -/
def evalSrc (vars : SMap Str) (src : Str) : Option Str :=
  if isWholePh src then vars.get (phVar src) else some src

/-- `RpTest::eval_source_list` from structures.rs: rebuild the source set,
substituting whole-token placeholders; the `expect` on a missing variable is
a fatal failure. -/
def RpTest.eval_source_list (t : RpTest) (vars : SMap Str) : Option (Finset Str) :=
  if ∀ src ∈ t.sources, (evalSrc vars src).isSome then
    some (t.sources.image fun src => (evalSrc vars src).getD src)
  else none

/-- `RpTest::eval` from structures.rs: clone with name and source list
evaluated; kind and test-case names are preserved. -/
def RpTest.eval (t : RpTest) (vars : SMap Str) : Option RpTest := do
  let n ← t.eval_name vars
  let s ← t.eval_source_list vars
  pure { t with name := n, sources := s }

/-- `RpTest::needs_source_expansion` from structures.rs: some source
reference contains a `$`. -/
def RpTest.needs_source_expansion (t : RpTest) : Bool :=
  decide (∃ src ∈ t.sources, '$' ∈ src)

/-- One source reference under `RpTest::expand_sources`: a whole-token
placeholder is replaced by the full membership of the referenced named set
(a reference to an undeclared set is fatal); anything else stays a
singleton. -/
def expandSrc (ctx : ParseContext) (src : Str) : Option (Finset Str) :=
  if isWholePh src then
    (ctx.source_sets.get (phVar src)).map fun ss => ss.files.toFinset
  else some {src}

/-- `RpTest::expand_sources` from structures.rs: the new source set is the
union of the per-reference expansions. -/
def RpTest.expand_sources (t : RpTest) (ctx : ParseContext) : Option RpTest :=
  if ∀ src ∈ t.sources, (expandSrc ctx src).isSome then
    some { t with sources := t.sources.sup fun src => (expandSrc ctx src).getD ∅ }
  else none

/-- The "BINARY_NAME" marker token of `find_test_name`. -/
def bnMarker : Str := chars "BINARY_NAME"

/-- The "SOURCES" marker token of `find_test_sources`. -/
def srcMarker : Str := chars "SOURCES"

/-- `find_test_name` from parsers.rs: the token after the BINARY_NAME
marker; a missing marker (or nothing after it) panics. -/
def find_test_name (tokens : List Str) : Option Str := do
  let i ← tokens.findIdx? (· == bnMarker)
  tokens[i + 1]?

/-- The stop-word heuristic of `find_test_sources`: every character is
uppercase or an underscore (vacuously true of the empty token).  Rust's
`char::is_uppercase` is Unicode-aware; the dialect's tokens are ASCII, where
it coincides with `Char.isUpper`. -/
def is_stop_word (s : Str) : Bool := s.all fun c => c.isUpper || c = '_'

/-- `find_test_sources` from parsers.rs: every token after the SOURCES
marker up to the first stop word, collected as a set; a missing marker
panics. -/
def find_test_sources (tokens : List Str) : Option (Finset Str) := do
  let i ← tokens.findIdx? (· == srcMarker)
  pure ((tokens.drop (i + 1)).takeWhile fun tok => !is_stop_word tok).toFinset

/-- The iteration of nom's `separated_list1(multispace1, parse_identifier)`
after the first identifier: while a whitespace separator is present, consume
it and parse the next identifier token (which may be empty).  Each iteration
consumes at least the separator, so fuel `s.length + 1` is never exhausted. -/
def sepIdentsGo : Nat → Str → List Str → Str × List Str
  | 0, s, acc => (s, acc.reverse)
  | fuel + 1, s, acc =>
      match s with
      | c :: t =>
          if isWs c then
            let s1 := (c :: t).dropWhile isWs
            let (s2, tok) := parse_identifier s1
            sepIdentsGo fuel s2 (tok :: acc)
          else (c :: t, acc.reverse)
      | [] => ([], acc.reverse)

/-- `separated_list1(multispace1, parse_identifier)`: at least one token
(the first identifier parse never fails), then separator-prefixed tokens. -/
def sepIdents (s : Str) : Str × List Str :=
  let (s1, tok) := parse_identifier s
  sepIdentsGo (s1.length + 1) s1 [tok]

/-- `parse_rp_test` from parsers.rs: whitespace-delimited token list up to
`)`, first token selecting the kind (any other leading token panics), name
and sources located by their marker tokens. -/
def parse_rp_test (input : Str) : Option (Str × RpTest) := do
  let s0 := multispace0 input
  let (rem1, toks) := sepIdents s0
  let rem2 ← expectChar ')' rem1
  let rem3 := multispace0 rem2
  let k0 ← toks.head?
  let kind ←
    if k0 = chars "FIXTURE_TEST" then some TestKind.Fixture
    else if k0 = chars "UNIT_TEST" then some TestKind.Unit
    else if k0 = chars "BENCHMARK_TEST" then some TestKind.Bench
    else none
  let name ← find_test_name toks
  let sources ← find_test_sources toks
  pure (rem3, ⟨name, sources, kind, ∅⟩)

/-- The `many_till(delimited(multispace0, parse_identifier, multispace0),
tag(")"))` loop of `parse_set_sources`: stop at `)`, otherwise parse one
whitespace-padded identifier; an iteration that consumes nothing is nom's
`ManyTill` error.  Each surviving iteration consumes at least one character,
so fuel `input.length + 1` is never exhausted. -/
def parse_set_keys : Nat → Str → Option (Str × List Str)
  | 0, _ => none
  | fuel + 1, s =>
      match s with
      | ')' :: r => some (r, [])
      | _ =>
          let s1 := multispace0 s
          let (s2, tok) := parse_identifier s1
          let s3 := multispace0 s2
          if s3.length = s.length then none
          else (parse_set_keys fuel s3).map fun rk => (rk.1, tok :: rk.2)

/-- `parse_set_sources` from parsers.rs: token run up to `)`, handed to
`SourceSet::new`. -/
def parse_set_sources (input : Str) : Option (Str × SourceSet) := do
  let (rem, keys) ← parse_set_keys (input.length + 1) input
  let ss ← SourceSet.new keys
  pure (rem, ss)

/-- The per-member expansion loop at the end of `parse_foreach`
(parsers.rs lines 134-141): bind the loop variable to the member,
materialize the binding table, evaluate the template, and emit the result;
the binding table is threaded through exactly as the Rust loop mutates it. -/
def run_loop : LazyBinding → Str → List Str → RpTest → Option (List RpTest)
  | _, _, [], _ => some []
  | lz, loop_var, f :: fs, t => do
      let lz' ← lz.populate loop_var f
      let m ← lz'.to_map
      let test ← t.eval m
      let rest ← run_loop lz' loop_var fs t
      pure (test :: rest)

/-- `parse_foreach` from parsers.rs: loop header (variable, one placeholder
naming the iterated set, `)`), fatal lookup of the set, declaration of the
loop variable, an optional `get_filename_component` immediately after the
header attaching the `.Cc`-stripping transform, a mandatory `rp_test`
template, a mandatory `endforeach`, then one evaluated template per set
member.  `&rem[1..]` on an input without `)` after the derived name is an
out-of-bounds panic. -/
def parse_foreach (input : Str) (ctx : ParseContext) : Option (Str × List RpTest) := do
  let (rem0, loop_var) := parse_identifier input
  let rem1 ← multispace1 rem0
  let (rem2, input_arg) ← parse_substitution rem1
  let rem3 ← expectChar ')' rem2
  let source_set ← ctx.source_sets.get input_arg
  let lz0 := LazyBinding.empty.add loop_var
  let (rem4, tg4) := skip_to_next_tag rem3
  let (lz, rem5, tg5) ←
    if tg4 = ParsedTag.GetFileNameComponent then do
      let (remA, derived) := parse_identifier rem4
      let lz1 ← lz0.add_transformed derived loop_var stripDotCc
      let remB := remA.dropWhile (fun c => c ≠ ')')
      match remB with
      | _ :: remC =>
          let (remD, tgD) := skip_to_next_tag remC
          pure (lz1, remD, tgD)
      | [] => none
    else pure (lz0, rem4, tg4)
  if tg5 = ParsedTag.RpTest then do
    let (rem6, rp_test) ← parse_rp_test rem5
    let (rem7, tg7) := skip_to_next_tag rem6
    if tg7 = ParsedTag.EndForEach then do
      let tests ← run_loop lz loop_var source_set.files rp_test
      pure (rem7, tests)
    else none
  else none

/-- The `ParsedTag::RpTest` arm of `dispatch_tag_parse`: expand the sources
when some reference contains `$`, then install the declaration under its
name. -/
def install_test (ctx : ParseContext) (t : RpTest) : Option ParseContext := do
  let t' ← if t.needs_source_expansion then t.expand_sources ctx else pure t
  pure { ctx with tests := ctx.tests.insert t'.name t' }

/-- `dispatch_tag_parse` from parsers.rs: total match over the scanned tag.
A stray `endforeach` panics; a `get_filename_component` outside a loop is
deliberately ignored ("Do nothing" in the source). -/
def dispatch_tag_parse (input : Str) (ctx : ParseContext) :
    ParsedTag → Option (Str × ParseContext)
  | .Set => do
      let (input', ss) ← parse_set_sources input
      pure (input', { ctx with source_sets := ctx.source_sets.insert ss.name ss })
  | .ForEach => do
      let (input', tests) ← parse_foreach input ctx
      pure (input', { ctx with tests := tests.foldl (fun m t => m.insert t.name t) ctx.tests })
  | .EndForEach => none
  | .RpTest => do
      let (input', t) ← parse_rp_test input
      let ctx' ← install_test ctx t
      pure (input', ctx')
  | .GetFileNameComponent => some (input, ctx)
  | .EOF => some (input, ctx)

/-- The scan-dispatch loop of `parse_unit` in mod.rs.  When the scanned tag
is not `EOF` at least the keyword itself (four or more characters) was
consumed, so fuel `input.length + 1` is never exhausted. -/
def parse_unit_go : Nat → Str → ParseContext → Option ParseContext
  | 0, _, _ => none
  | fuel + 1, input, ctx =>
      if input = [] then some ctx
      else
        let (input', tg) := skip_to_next_tag input
        if tg = ParsedTag.EOF then some ctx
        else
          match dispatch_tag_parse input' ctx tg with
          | some (input'', ctx') => parse_unit_go fuel input'' ctx'
          | none => none

/-- `parse_unit` from mod.rs: parse one file's text into an evaluation
context, starting from the default context. -/
def parse_unit (input : Str) : Option ParseContext :=
  parse_unit_go (input.length + 1) input ParseContext.empty

/-! ### Basic facts about the HashMap embedding -/

theorem SMap.get_insert_self {V : Type} (m : SMap V) (k : Str) (v : V) :
    (m.insert k v).get k = some v := by
  induction m with
  | nil => simp [SMap.insert, SMap.get]
  | cons p rest ih =>
      obtain ⟨k', v'⟩ := p
      by_cases h : k' = k <;> simp [SMap.insert, SMap.get, h, ih]

theorem SMap.get_insert_ne {V : Type} (m : SMap V) (k k' : Str) (v : V) (h : k' ≠ k) :
    (m.insert k v).get k' = m.get k' := by
  have h' : k ≠ k' := fun hh => h hh.symm
  induction m with
  | nil => simp [SMap.insert, SMap.get, h']
  | cons p rest ih =>
      obtain ⟨k'', v''⟩ := p
      by_cases hk : k'' = k
      · subst hk
        simp [SMap.insert, SMap.get, h']
      · simp [SMap.insert, SMap.get, hk, ih]

/-! ### C1: the round-trip scenario -/

/-- The round-trip input of the spec: a set `SRC` with members `a.cc` and
`b.cc`, a loop over it with variable `F`, a derived name `STEM`, and a unit
test declaration named `test_${STEM}` with source `${F}`. -/
def c1Input : Str := chars
  "set(SRC a.cc b.cc)\nforeach(F ${SRC})\nget_filename_component(STEM ${F} NAME_WE)\nrp_test(UNIT_TEST BINARY_NAME test_${STEM} SOURCES ${F})\nendforeach()\n"

/-- What the code actually produces on `c1Input`: the fixed transform strips
the literal suffix `.Cc`, which does not occur in `a.cc` or `b.cc`, so the
stems are the unchanged member names and the resolved declarations are named
`test_a.cc` and `test_b.cc`. -/
def c1Expected : ParseContext :=
  { source_sets := [(chars "SRC", ⟨chars "SRC", [chars "a.cc", chars "b.cc"]⟩)],
    tests := [(chars "test_a.cc", ⟨chars "test_a.cc", {chars "a.cc"}, TestKind.Unit, ∅⟩),
              (chars "test_b.cc", ⟨chars "test_b.cc", {chars "b.cc"}, TestKind.Unit, ∅⟩)] }

set_option maxRecDepth 100000 in
/-- C1, counterexample: on the round-trip input the parse succeeds but
installs no declaration named `test_a` (the fixed transform strips `.Cc`,
not `.cc`, so the stem of member `a.cc` is `a.cc`, not `a`). -/
theorem c1_counterexample :
    (parse_unit c1Input).isSome = true ∧
      (parse_unit c1Input).bind (fun ctx => ctx.tests.get (chars "test_a")) = none := by
  constructor <;> decide

set_option maxRecDepth 100000 in
/-- C1, amended: the round-trip input parses to exactly two resolved
declarations, `test_a.cc` with source set `{a.cc}` and `test_b.cc` with
source set `{b.cc}`, the declared set being recorded unchanged. -/
theorem c1_round_trip : parse_unit c1Input = some c1Expected := by decide

/-! ### C6: dispatcher behaviour on non-implemented tag combinations -/

/-- C6, counterexample: a `get_filename_component` tag dispatched outside a
loop is a silent no-op — the dispatcher succeeds and leaves both the input
position and the evaluation context untouched, rather than failing. -/
theorem c6_counterexample :
    dispatch_tag_parse (chars "x") ParseContext.empty ParsedTag.GetFileNameComponent =
      some (chars "x", ParseContext.empty) := by decide

/-- C6, amended: a loop-end tag with no preceding loop-start is always a
fatal, explicit error, while a derived-name declaration outside a loop is
silently skipped: the dispatcher returns success with the input and the
context unchanged. -/
theorem c6_dispatch_edges (input : Str) (ctx : ParseContext) :
    dispatch_tag_parse input ctx ParsedTag.EndForEach = none ∧
      dispatch_tag_parse input ctx ParsedTag.GetFileNameComponent = some (input, ctx) :=
  ⟨rfl, rfl⟩

/-! ### C7: a loop with no test declaration before its end is fatal -/

/-- C7: when a loop header parses (variable, set placeholder, closing
delimiter), the iterated set is declared, and the next recognized tag in the
loop body is the loop-end itself (no test declaration in between), then
dispatching the loop is a fatal failure: `parse_foreach` asserts that the
tag is a test declaration, so the dispatcher returns no updated context and
no declaration from this loop is ever installed. -/
theorem c7_loop_without_test_fatal
    (input rem0 rem1 rem2 rem3 rem4 loop_var input_arg : Str)
    (ctx : ParseContext) (ss : SourceSet)
    (h1 : parse_identifier input = (rem0, loop_var))
    (h2 : multispace1 rem0 = some rem1)
    (h3 : parse_substitution rem1 = some (rem2, input_arg))
    (h4 : expectChar ')' rem2 = some rem3)
    (h5 : ctx.source_sets.get input_arg = some ss)
    (h6 : skip_to_next_tag rem3 = (rem4, ParsedTag.EndForEach)) :
    dispatch_tag_parse input ctx ParsedTag.ForEach = none := by
  simp [dispatch_tag_parse, parse_foreach, h1, h2, h3, h4, h5, h6]

/-- The evaluation context of the C7 witness: one declared set `S`. -/
def c7Ctx : ParseContext := ⟨[(chars "S", ⟨chars "S", [chars "x.cc"]⟩)], []⟩

/-- C7 witness: the concrete malformed loop `foreach(F ${S}) endforeach()`
aborts the dispatch. -/
theorem c7_loop_without_test_fatal_witness :
    dispatch_tag_parse (chars "F ${S})endforeach()") c7Ctx ParsedTag.ForEach = none :=
  c7_loop_without_test_fatal (chars "F ${S})endforeach()")
    (chars " ${S})endforeach()") (chars "${S})endforeach()")
    (chars ")endforeach()") (chars "endforeach()") [] (chars "F") (chars "S")
    c7Ctx ⟨chars "S", [chars "x.cc"]⟩
    (by decide) (by decide) (by decide) (by decide) (by decide) (by decide)

/-! ### C8: re-declaring a set replaces it and leaves installed tests alone -/

/-- C8: dispatching any set declaration (in particular a re-declaration of
an already declared name) leaves the installed test map untouched, makes
the declared name resolve to exactly the new membership, and leaves every
other set name's resolution unchanged; hence a loop completed before the
re-declaration keeps its emitted declarations, and every later reference
sees only the new membership. -/
theorem c8_set_redeclaration (input rem : Str) (ctx : ParseContext) (ss : SourceSet)
    (h : parse_set_sources input = some (rem, ss)) :
    ∃ ctx', dispatch_tag_parse input ctx ParsedTag.Set = some (rem, ctx') ∧
      ctx'.tests = ctx.tests ∧
      ctx'.source_sets.get ss.name = some ss ∧
      ∀ k, k ≠ ss.name → ctx'.source_sets.get k = ctx.source_sets.get k := by
  refine ⟨{ ctx with source_sets := ctx.source_sets.insert ss.name ss }, ?_, rfl, ?_, ?_⟩
  · simp [dispatch_tag_parse, h]
  · exact SMap.get_insert_self ..
  · intro k hk
    exact SMap.get_insert_ne _ _ _ _ hk

/-- The evaluation context of the C8 witness: set `A` declared with member
`old.cc`, and one test already installed by an earlier loop. -/
def c8Ctx : ParseContext :=
  ⟨[(chars "A", ⟨chars "A", [chars "old.cc"]⟩)],
   [(chars "t0", ⟨chars "t0", {chars "old.cc"}, TestKind.Unit, ∅⟩)]⟩

/-- C8 witness: re-declaring `A` with member `x.cc` replaces the set, keeps
the installed test, and later lookups of `A` see only the new membership. -/
theorem c8_set_redeclaration_witness :
    ∃ ctx', dispatch_tag_parse (chars "A x.cc)") c8Ctx ParsedTag.Set = some ([], ctx') ∧
      ctx'.tests = c8Ctx.tests ∧
      ctx'.source_sets.get (SourceSet.mk (chars "A") [chars "x.cc"]).name =
        some ⟨chars "A", [chars "x.cc"]⟩ ∧
      ∀ k, k ≠ (SourceSet.mk (chars "A") [chars "x.cc"]).name →
        ctx'.source_sets.get k = c8Ctx.source_sets.get k :=
  c8_set_redeclaration (chars "A x.cc)") [] c8Ctx ⟨chars "A", [chars "x.cc"]⟩ (by decide)

/-! ### Facts about placeholders and the `.Cc` replacement -/

theorem phTok_eq_append (v : Str) : phTok v = ('$' :: '{' :: v) ++ ['}'] := by
  simp [phTok]

theorem isWholePh_phTok (v : Str) : isWholePh (phTok v) = true := by
  have h2 : ('{' :: (v ++ ['}'])).getLast? = some '}' := by
    rw [show '{' :: (v ++ ['}']) = ('{' :: v) ++ ['}'] from by simp]
    exact List.getLast?_concat _
  simp [isWholePh, phTok, h2, chars]

theorem phVar_phTok (v : Str) : phVar (phTok v) = v := by
  have hlen : (phTok v).length = v.length + 3 := by simp [phTok]
  rw [phVar, hlen]
  simp [phTok]

theorem strReplaceGo_of_not_contains (pat rep : Str) :
    ∀ (fuel : Nat) (s : Str), containsSub s pat = false → strReplaceGo pat rep fuel s = s := by
  intro fuel
  induction fuel with
  | zero => intro s _; rfl
  | succ n ih =>
      intro s h
      cases s with
      | nil => rfl
      | cons c t =>
          rw [containsSub] at h
          have h1 : ¬((c :: t).take pat.length = pat) := by
            cases hh : ((c :: t).take pat.length == pat) <;> simp_all
          have h2 : containsSub t pat = false := by
            cases hh : containsSub t pat <;> simp_all
          rw [strReplaceGo, if_neg, ih t h2]
          rintro ⟨_, htake⟩
          exact h1 htake

/-- If the pattern does not occur in the string, `replace` leaves it
unchanged. -/
theorem strReplace_of_not_contains (s pat rep : Str) (h : containsSub s pat = false) :
    strReplace s pat rep = s :=
  strReplaceGo_of_not_contains pat rep s.length s h

/-! ### C3: the derived-name value under the fixed transform -/

/-- C3: declaring the loop variable, attaching the fixed suffix-stripping
transform to a (distinct) derived name, binding the loop variable to a
member `m`, and materializing, yields exactly: the loop variable bound to
`m`, and the derived name bound to `m` with every (left-to-right,
non-overlapping) occurrence of the fixed suffix `.Cc` removed — hence to
`m` unchanged whenever the suffix does not occur in `m`. -/
theorem c3_derived_value (lv key m : Str) (hk : key ≠ lv) :
    ∃ lz lz' mp,
      (LazyBinding.empty.add lv).add_transformed key lv stripDotCc = some lz ∧
      lz.populate lv m = some lz' ∧
      lz'.to_map = some mp ∧
      mp.get key = some (strReplace m (chars ".Cc") []) ∧
      mp.get lv = some m ∧
      (containsSub m (chars ".Cc") = false → mp.get key = some m) := by
  refine ⟨⟨[(lv, .nothing), (key, .indirectBinding lv stripDotCc)]⟩,
          ⟨[(lv, .string m), (key, .indirectBinding lv stripDotCc)]⟩,
          [(lv, m), (key, stripDotCc m)], ?_, ?_, ?_, ?_, ?_, ?_⟩
  · simp [LazyBinding.empty, LazyBinding.add, LazyBinding.add_transformed,
      SMap.insert, SMap.get, hk, Ne.symm hk]
  · simp [LazyBinding.populate, SMap.get, SMap.insert]
  · simp [LazyBinding.to_map, List.mapM, List.mapM.loop, SMap.get, hk, Ne.symm hk]
  · simp [SMap.get, Ne.symm hk, stripDotCc]
  · simp [SMap.get]
  · intro hc
    simp [SMap.get, Ne.symm hk, stripDotCc, strReplace_of_not_contains _ _ _ hc]

/-- C3 witness: loop variable `F`, derived name `STEM`, member `a.Cc`: the
derived value is `a`, and for the suffix-free member the second part
applies. -/
theorem c3_derived_value_witness :
    ∃ lz lz' mp,
      (LazyBinding.empty.add (chars "F")).add_transformed (chars "STEM")
          (chars "F") stripDotCc = some lz ∧
      lz.populate (chars "F") (chars "a.Cc") = some lz' ∧
      lz'.to_map = some mp ∧
      mp.get (chars "STEM") = some (strReplace (chars "a.Cc") (chars ".Cc") []) ∧
      mp.get (chars "F") = some (chars "a.Cc") ∧
      (containsSub (chars "a.Cc") (chars ".Cc") = false →
        mp.get (chars "STEM") = some (chars "a.Cc")) :=
  c3_derived_value (chars "F") (chars "STEM") (chars "a.Cc") (by decide)

/-! ### C10: an unknown whole-token source placeholder inside a loop is fatal -/

/-- C10: inside a loop (loop variable `lv`, derived name `d`), a test
template with a whole-token source placeholder `${N}` where `N` is neither
the loop variable nor the derived name makes the expansion of a non-empty
member list abort fatally during substitution: only the loop variable and
the derived name are in the materialized map, so the source lookup fails
and no set-membership expansion of a source placeholder ever happens inside
a loop. -/
theorem c10_unknown_source_placeholder_fatal
    (lv d N m : Str) (fs : List Str) (t : RpTest)
    (hdl : d ≠ lv) (hmem : phTok N ∈ t.sources) (hNl : N ≠ lv) (hNd : N ≠ d) :
    ∃ lz, (LazyBinding.empty.add lv).add_transformed d lv stripDotCc = some lz ∧
      run_loop lz lv (m :: fs) t = none := by
  refine ⟨⟨[(lv, .nothing), (d, .indirectBinding lv stripDotCc)]⟩, ?_, ?_⟩
  · simp [LazyBinding.empty, LazyBinding.add, LazyBinding.add_transformed,
      SMap.insert, SMap.get, hdl, Ne.symm hdl]
  · have hpop : (LazyBinding.mk [(lv, .nothing), (d, .indirectBinding lv stripDotCc)]).populate
        lv m = some ⟨[(lv, .string m), (d, .indirectBinding lv stripDotCc)]⟩ := by
      simp [LazyBinding.populate, SMap.get, SMap.insert]
    have hmap : (LazyBinding.mk [(lv, .string m), (d, .indirectBinding lv stripDotCc)]).to_map
        = some [(lv, m), (d, stripDotCc m)] := by
      simp [LazyBinding.to_map, List.mapM, List.mapM.loop, SMap.get, hdl, Ne.symm hdl]
    have hsrc : t.eval_source_list [(lv, m), (d, stripDotCc m)] = none := by
      rw [RpTest.eval_source_list, if_neg]
      push_neg
      refine ⟨phTok N, hmem, ?_⟩
      simp [evalSrc, isWholePh_phTok, phVar_phTok, SMap.get, Ne.symm hNl, Ne.symm hNd]
    have heval : t.eval [(lv, m), (d, stripDotCc m)] = none := by
      cases hn : t.eval_name [(lv, m), (d, stripDotCc m)] <;>
        simp [RpTest.eval, hn, hsrc]
    simp [run_loop, hpop, hmap, heval]

/-- C10 witness: loop variable `F`, derived name `STEM`, source `${SRC}`
naming a previously declared set, non-empty member list. -/
theorem c10_unknown_source_placeholder_fatal_witness :
    ∃ lz, (LazyBinding.empty.add (chars "F")).add_transformed (chars "STEM")
        (chars "F") stripDotCc = some lz ∧
      run_loop lz (chars "F") [chars "a.cc"]
        ⟨chars "t", {phTok (chars "SRC")}, TestKind.Unit, ∅⟩ = none :=
  c10_unknown_source_placeholder_fatal (chars "F") (chars "STEM") (chars "SRC")
    (chars "a.cc") [] ⟨chars "t", {phTok (chars "SRC")}, TestKind.Unit, ∅⟩
    (by decide) (by decide) (by decide) (by decide)

/-! ### C2: loop expansion over non-placeholder sources -/

/-- Substituting with a variable map keeps a source set without whole-token
placeholders unchanged. -/
theorem eval_source_list_id (t : RpTest) (vars : SMap Str)
    (h : ∀ src ∈ t.sources, isWholePh src = false) :
    t.eval_source_list vars = some t.sources := by
  have hall : ∀ src ∈ t.sources, (evalSrc vars src).isSome := by
    intro src hs
    simp [evalSrc, h src hs]
  rw [RpTest.eval_source_list, if_pos hall]
  congr 1
  calc t.sources.image (fun src => (evalSrc vars src).getD src)
      = t.sources.image id :=
        Finset.image_congr fun src hs => by
          simp [evalSrc, h src (by simpa using hs)]
    _ = t.sources := Finset.image_id

/-- The name-substitution fold succeeds whenever every matched variable is
bound. -/
theorem foldlM_replace_isSome (vars : SMap Str) :
    ∀ (l : List Str) (init : Str), (∀ v ∈ l, (vars.get v).isSome) →
      (l.foldlM (fun name var => (vars.get var).map fun value =>
        strReplace name (phTok var) value) init).isSome := by
  intro l
  induction l with
  | nil => intro init _; rfl
  | cons v vs ih =>
      intro init h
      obtain ⟨val, hval⟩ := Option.isSome_iff_exists.mp (h v (by simp))
      rw [List.foldlM_cons]
      simp only [hval, Option.map_some', Option.bind_eq_bind, Option.some_bind]
      exact ih _ fun x hx => h x (by simp [hx])

/-- One run of the expansion loop over a single-key binding table: one
evaluated declaration per member, each keeping the template's source set
and kind, when the template's name placeholders all name the loop variable
and no source is a whole-token placeholder. -/
theorem run_loop_simple (lv : Str) (t : RpTest)
    (hname : ∀ v ∈ phFindIter t.name, v = lv)
    (hsrc : ∀ src ∈ t.sources, isWholePh src = false) :
    ∀ (files : List Str) (v0 : BindingValue),
      ∃ tests, run_loop ⟨[(lv, v0)]⟩ lv files t = some tests ∧
        tests.length = files.length ∧
        ∀ test ∈ tests, test.sources = t.sources ∧ test.kind = t.kind := by
  intro files
  induction files with
  | nil => exact fun v0 => ⟨[], rfl, rfl, by simp⟩
  | cons f fs ih =>
      intro v0
      obtain ⟨tests, hr, hl, hp⟩ := ih (.string f)
      have hpop : (LazyBinding.mk [(lv, v0)]).populate lv f = some ⟨[(lv, .string f)]⟩ := by
        simp [LazyBinding.populate, SMap.get, SMap.insert]
      have hmap : (LazyBinding.mk [(lv, .string f)]).to_map = some [(lv, f)] := by
        simp [LazyBinding.to_map, List.mapM, List.mapM.loop]
      have hget : ∀ v ∈ phFindIter t.name, (SMap.get [(lv, f)] v).isSome := by
        intro v hv
        rw [hname v hv]
        simp [SMap.get]
      obtain ⟨n, hn⟩ := Option.isSome_iff_exists.mp
        (foldlM_replace_isSome [(lv, f)] (phFindIter t.name) t.name hget)
      have heval : t.eval [(lv, f)] = some { t with name := n, sources := t.sources } := by
        rw [RpTest.eval]
        rw [show t.eval_name [(lv, f)] = some n from hn]
        rw [eval_source_list_id t [(lv, f)] hsrc]
        rfl
      refine ⟨{ t with name := n, sources := t.sources } :: tests, ?_, by simp [hl], ?_⟩
      · simp [run_loop, hpop, hmap, heval, hr]
      · intro test ht
        rcases List.mem_cons.mp ht with h | h
        · subst h
          exact ⟨rfl, rfl⟩
        · exact hp test h

/-- C2: expanding a loop over any member list, from a fresh binding table
holding only the loop variable, with a test template whose name placeholders
all name the loop variable and none of whose source references is a
whole-token placeholder, produces exactly one resolved declaration per
member, each carrying exactly the template's source references (and kind):
loop-variable substitution leaves non-placeholder sources unchanged. -/
theorem c2_loop_preserves_sources (lv : Str) (files : List Str) (t : RpTest)
    (hname : ∀ v ∈ phFindIter t.name, v = lv)
    (hsrc : ∀ src ∈ t.sources, isWholePh src = false) :
    ∃ tests, run_loop (LazyBinding.empty.add lv) lv files t = some tests ∧
      tests.length = files.length ∧
      ∀ test ∈ tests, test.sources = t.sources ∧ test.kind = t.kind :=
  run_loop_simple lv t hname hsrc files .nothing

/-- C2 witness: loop variable `F`, two members, template `t_${F}` with two
concrete sources. -/
theorem c2_loop_preserves_sources_witness :
    ∃ tests, run_loop (LazyBinding.empty.add (chars "F")) (chars "F")
        [chars "x.cc", chars "y.cc"]
        ⟨chars "t_${F}", {chars "a.cc", chars "b.h"}, TestKind.Unit, ∅⟩ = some tests ∧
      tests.length = [chars "x.cc", chars "y.cc"].length ∧
      ∀ test ∈ tests, test.sources = ({chars "a.cc", chars "b.h"} : Finset Str) ∧
        test.kind = TestKind.Unit :=
  c2_loop_preserves_sources (chars "F") [chars "x.cc", chars "y.cc"]
    ⟨chars "t_${F}", {chars "a.cc", chars "b.h"}, TestKind.Unit, ∅⟩
    (by decide) (by decide)

/-! ### C4: out-of-loop whole-token source expansion -/

/-- C4: a test declaration outside any loop whose source list is a
whole-token placeholder for a declared set together with non-placeholder
literal sources expands, at installation time, to exactly one declaration
(installed under the unchanged raw name) whose source set is the set's full
membership unioned with the literals; the placeholder token itself is gone
whenever it is not itself a member or a literal. -/
theorem c4_out_of_loop_expansion (ctx : ParseContext) (t : RpTest) (name : Str)
    (ss : SourceSet) (L : Finset Str)
    (hget : ctx.source_sets.get name = some ss)
    (hsources : t.sources = insert (phTok name) L)
    (hL : ∀ l ∈ L, isWholePh l = false)
    (hfree : phTok name ∉ ss.files) :
    ∃ t', t.expand_sources ctx = some t' ∧
      t'.name = t.name ∧ t'.kind = t.kind ∧
      t'.sources = ss.files.toFinset ∪ L ∧
      phTok name ∉ t'.sources ∧
      install_test ctx t = some { ctx with tests := ctx.tests.insert t.name t' } := by
  have hTnotL : phTok name ∉ L := by
    intro hmem
    have h := hL _ hmem
    rw [isWholePh_phTok] at h
    exact absurd h (by simp)
  have hallsome : ∀ src ∈ t.sources, (expandSrc ctx src).isSome := by
    intro src hs
    rw [hsources] at hs
    rcases Finset.mem_insert.mp hs with h | h
    · subst h
      simp [expandSrc, isWholePh_phTok, phVar_phTok, hget]
    · simp [expandSrc, hL src h]
  have hsup : (t.sources.sup fun src => (expandSrc ctx src).getD ∅) =
      ss.files.toFinset ∪ L := by
    rw [hsources, Finset.sup_insert]
    have h1 : (expandSrc ctx (phTok name)).getD ∅ = ss.files.toFinset := by
      simp [expandSrc, isWholePh_phTok, phVar_phTok, hget]
    have h2 : (L.sup fun src => (expandSrc ctx src).getD ∅) =
        L.sup (fun l => ({l} : Finset Str)) :=
      Finset.sup_congr rfl fun l hl => by simp [expandSrc, hL l hl]
    have h3 : L.sup (fun l => ({l} : Finset Str)) = L := by
      rw [Finset.sup_eq_biUnion]
      exact Finset.biUnion_singleton_eq_self
    rw [h1, h2, h3]
    rfl
  have hexp : t.expand_sources ctx = some { t with sources := ss.files.toFinset ∪ L } := by
    rw [RpTest.expand_sources, if_pos hallsome, hsup]
  have hneeds : t.needs_source_expansion = true := by
    rw [RpTest.needs_source_expansion, decide_eq_true_eq]
    refine ⟨phTok name, ?_, by simp [phTok]⟩
    rw [hsources]
    exact Finset.mem_insert_self _ _
  refine ⟨{ t with sources := ss.files.toFinset ∪ L }, hexp, rfl, rfl, rfl, ?_, ?_⟩
  · simp [List.mem_toFinset, hfree, hTnotL]
  · simp [install_test, hneeds, hexp]

/-- The evaluation context of the C4 witness: set `S` with two members. -/
def c4Ctx : ParseContext :=
  ⟨[(chars "S", ⟨chars "S", [chars "m1.cc", chars "m2.cc"]⟩)], []⟩

/-- The raw declaration of the C4 witness: source list `{${S}, lit.cc}`. -/
def c4Test : RpTest :=
  ⟨chars "t1", {phTok (chars "S"), chars "lit.cc"}, TestKind.Unit, ∅⟩

/-- C4 witness: expanding `${S}` against `c4Ctx` yields the two members
plus the literal, with the placeholder token gone, installed as one
declaration. -/
theorem c4_out_of_loop_expansion_witness :
    ∃ t', c4Test.expand_sources c4Ctx = some t' ∧
      t'.name = c4Test.name ∧ t'.kind = c4Test.kind ∧
      t'.sources = [chars "m1.cc", chars "m2.cc"].toFinset ∪ {chars "lit.cc"} ∧
      phTok (chars "S") ∉ t'.sources ∧
      install_test c4Ctx c4Test =
        some { c4Ctx with tests := c4Ctx.tests.insert c4Test.name t' } :=
  c4_out_of_loop_expansion c4Ctx c4Test (chars "S")
    ⟨chars "S", [chars "m1.cc", chars "m2.cc"]⟩ {chars "lit.cc"}
    (by decide) (by decide) (by decide) (by decide)

/-! ### Facts about the placeholder scanner and replacement -/

theorem phGo_nil (fuel : Nat) : phFindIterGo fuel [] = [] := by
  cases fuel <;> rfl

theorem phGo_cons_not_dollar (fuel : Nat) (c : Char) (t : Str) (h : c ≠ '$') :
    phFindIterGo (fuel + 1) (c :: t) = phFindIterGo fuel t := by
  simp only [phFindIterGo]
  rw [if_neg]
  rintro ⟨hc, _⟩
  exact h hc

theorem phFindIterGo_congr : ∀ (f1 f2 : Nat) (s : Str), s.length ≤ f1 → s.length ≤ f2 →
    phFindIterGo f1 s = phFindIterGo f2 s := by
  intro f1
  induction f1 using Nat.strong_induction_on with
  | _ f1 ih =>
    intro f2 s h1 h2
    cases s with
    | nil => rw [phGo_nil, phGo_nil]
    | cons c t =>
      obtain ⟨g1, rfl⟩ : ∃ g1, f1 = g1 + 1 := by
        cases f1 with
        | zero => simp at h1
        | succ n => exact ⟨n, rfl⟩
      obtain ⟨g2, rfl⟩ : ∃ g2, f2 = g2 + 1 := by
        cases f2 with
        | zero => simp at h2
        | succ n => exact ⟨n, rfl⟩
      simp only [List.length_cons] at h1 h2
      simp only [phFindIterGo]
      by_cases hc : c = '$' ∧ t.take 1 = ['{']
      · rw [if_pos hc, if_pos hc]
        cases hj : lastIdxOf '}' ((t.drop 1).takeWhile (fun x => decide (x ≠ '\n'))) with
        | some j =>
            have hd : ((t.drop 1).drop (j + 1)).length ≤ t.length := by
              simp only [List.length_drop]
              omega
            dsimp only
            congr 1
            exact ih g1 (by omega) g2 ((t.drop 1).drop (j + 1))
              (le_trans hd (by omega)) (le_trans hd (by omega))
        | none =>
            exact ih g1 (by omega) g2 t (by omega) (by omega)
      · rw [if_neg hc, if_neg hc]
        exact ih g1 (by omega) g2 t (by omega) (by omega)

theorem phFindIter_cons (c : Char) (t : Str) (h : c ≠ '$') :
    phFindIter (c :: t) = phFindIter t := by
  rw [phFindIter, phFindIter, show (c :: t).length = t.length + 1 from rfl,
    phGo_cons_not_dollar _ _ _ h]

theorem phFindIter_append_not_dollar (p s : Str) (hp : '$' ∉ p) :
    phFindIter (p ++ s) = phFindIter s := by
  induction p with
  | nil => simp
  | cons c p' ih =>
      rw [List.cons_append, phFindIter_cons c _ (fun hc => hp (by simp [hc]))]
      exact ih fun h => hp (by simp [h])

theorem phFindIter_nil_of_no_dollar (q : Str) (hq : '$' ∉ q) : phFindIter q = [] := by
  calc phFindIter q = phFindIter (q ++ []) := by rw [List.append_nil]
    _ = phFindIter [] := phFindIter_append_not_dollar q [] hq
    _ = [] := rfl

theorem lastIdxOf_eq_none (c : Char) (l : Str) (h : c ∉ l) : lastIdxOf c l = none := by
  induction l with
  | nil => rfl
  | cons x t ih =>
      rw [lastIdxOf, ih (fun ht => h (List.mem_cons_of_mem _ ht))]
      simp only
      rw [if_neg]
      intro hxc
      exact h (by simp [hxc])

theorem lastIdxOf_append_last (x q : Str) (hx : '}' ∉ x) (hq : '}' ∉ q) :
    lastIdxOf '}' (x ++ '}' :: q) = some x.length := by
  induction x with
  | nil => simp [lastIdxOf, lastIdxOf_eq_none '}' q hq]
  | cons c t ih =>
      rw [List.cons_append, lastIdxOf, ih (fun ht => hx (by simp [ht]))]
      simp

theorem takeWhile_append_all (p : Char → Bool) (x r : Str) (h : ∀ a ∈ x, p a = true) :
    (x ++ r).takeWhile p = x ++ r.takeWhile p := by
  induction x with
  | nil => rfl
  | cons c t ih =>
      simp [List.takeWhile_cons, h c (by simp), ih fun a ha => h a (by simp [ha])]

theorem mem_of_mem_takeWhile {a : Char} {p : Char → Bool} {l : Str}
    (h : a ∈ l.takeWhile p) : a ∈ l := by
  induction l with
  | nil => simp at h
  | cons c t ih =>
      rw [List.takeWhile_cons] at h
      by_cases hc : p c = true
      · rw [if_pos hc] at h
        rcases List.mem_cons.mp h with h | h
        · simp [h]
        · simp [ih h]
      · rw [if_neg hc] at h
        simp at h

theorem phFindIter_match (x q : Str) (hxb : '}' ∉ x) (hxn : '\n' ∉ x) (hqb : '}' ∉ q) :
    phFindIter ('$' :: '{' :: (x ++ '}' :: q)) = x :: phFindIter q := by
  have hline : (x ++ '}' :: q).takeWhile (fun c => decide (c ≠ '\n')) =
      x ++ '}' :: q.takeWhile (fun c => decide (c ≠ '\n')) := by
    rw [takeWhile_append_all _ x _ (fun a ha => by
      simp only [decide_eq_true_eq]
      exact fun h => hxn (h ▸ ha))]
    rw [List.takeWhile_cons]
    simp
  have hq' : '}' ∉ q.takeWhile (fun c => decide (c ≠ '\n')) :=
    fun hm => hqb (mem_of_mem_takeWhile hm)
  have hlast : lastIdxOf '}' (x ++ '}' :: q.takeWhile (fun c => decide (c ≠ '\n'))) =
      some x.length := lastIdxOf_append_last x _ hxb hq'
  have hdrop : (x ++ '}' :: q).drop (x.length + 1) = q := by
    rw [List.append_cons, show x.length + 1 = (x ++ ['}']).length from by simp]
    exact List.drop_left _ _
  rw [phFindIter]
  simp only [List.length_cons]
  simp only [phFindIterGo]
  rw [if_pos (by simp)]
  simp only [List.drop_one, List.tail_cons]
  rw [hline, hlast]
  dsimp only
  rw [hdrop, List.take_left]
  congr 1
  rw [phFindIter]
  exact phFindIterGo_congr _ _ q (by simp; omega) (le_refl _)

/-! ### Replacement over a string with a single marked occurrence -/

theorem strReplaceGo_nil (pat rep : Str) (fuel : Nat) : strReplaceGo pat rep fuel [] = [] := by
  cases fuel <;> rfl

theorem strReplaceGo_congr (pat rep : Str) : ∀ (f1 f2 : Nat) (s : Str),
    s.length ≤ f1 → s.length ≤ f2 → strReplaceGo pat rep f1 s = strReplaceGo pat rep f2 s := by
  intro f1
  induction f1 using Nat.strong_induction_on with
  | _ f1 ih =>
    intro f2 s h1 h2
    cases s with
    | nil => rw [strReplaceGo_nil, strReplaceGo_nil]
    | cons c t =>
      obtain ⟨g1, rfl⟩ : ∃ g1, f1 = g1 + 1 := by
        cases f1 with
        | zero => simp at h1
        | succ n => exact ⟨n, rfl⟩
      obtain ⟨g2, rfl⟩ : ∃ g2, f2 = g2 + 1 := by
        cases f2 with
        | zero => simp at h2
        | succ n => exact ⟨n, rfl⟩
      simp only [List.length_cons] at h1 h2
      simp only [strReplaceGo]
      by_cases hc : pat ≠ [] ∧ (c :: t).take pat.length = pat
      · rw [if_pos hc, if_pos hc]
        have hpatlen : 1 ≤ pat.length := by
          cases pat with
          | nil => exact absurd rfl hc.1
          | cons a b => simp
        have hd : ((c :: t).drop pat.length).length ≤ t.length := by
          simp only [List.length_drop, List.length_cons]
          omega
        congr 1
        exact ih g1 (by omega) g2 ((c :: t).drop pat.length)
          (le_trans hd (by omega)) (le_trans hd (by omega))
      · rw [if_neg hc, if_neg hc]
        congr 1
        exact ih g1 (by omega) g2 t (by omega) (by omega)

theorem strReplace_cons_ne (c : Char) (t pat rep : Str)
    (hpat : pat.take 1 = ['$']) (hc : c ≠ '$') :
    strReplace (c :: t) pat rep = c :: strReplace t pat rep := by
  obtain ⟨pat', rfl⟩ : ∃ pat', pat = '$' :: pat' := by
    cases pat with
    | nil => simp at hpat
    | cons a b =>
        simp only [List.take, List.take_zero, List.cons.injEq, and_true] at hpat
        exact ⟨b, by rw [hpat]⟩
  rw [strReplace, strReplace]
  simp only [List.length_cons]
  simp only [strReplaceGo]
  rw [if_neg (by
    rintro ⟨-, htk⟩
    simp only [List.length_cons, List.take, List.cons.injEq] at htk
    exact hc htk.1)]

theorem strReplace_append_free (p s pat rep : Str)
    (hpat : pat.take 1 = ['$']) (hp : '$' ∉ p) :
    strReplace (p ++ s) pat rep = p ++ strReplace s pat rep := by
  induction p with
  | nil => simp
  | cons c p' ih =>
      rw [List.cons_append,
        strReplace_cons_ne c _ pat rep hpat (fun h => hp (by simp [h])),
        ih fun h => hp (by simp [h]), List.cons_append]

theorem strReplace_head_match (s pat rep : Str) (hpat : pat ≠ []) :
    strReplace (pat ++ s) pat rep = rep ++ strReplace s pat rep := by
  obtain ⟨a, pat', rfl⟩ : ∃ a pat', pat = a :: pat' := by
    cases pat with
    | nil => exact absurd rfl hpat
    | cons a b => exact ⟨a, b, rfl⟩
  rw [strReplace, strReplace]
  rw [show (a :: pat') ++ s = a :: (pat' ++ s) from rfl]
  simp only [List.length_cons]
  simp only [strReplaceGo]
  rw [if_pos ⟨hpat, by rw [show a :: (pat' ++ s) = (a :: pat') ++ s from rfl]; exact List.take_left _ _⟩]
  rw [show a :: (pat' ++ s) = (a :: pat') ++ s from rfl, List.drop_left]
  congr 1
  apply strReplaceGo_congr
  · simp only [List.length_append, List.length_cons]
    omega
  · exact le_refl _

theorem not_contains_of_no_dollar (s pat : Str)
    (hpat : pat.take 1 = ['$']) (hs : '$' ∉ s) :
    containsSub s pat = false := by
  obtain ⟨pat', rfl⟩ : ∃ pat', pat = '$' :: pat' := by
    cases pat with
    | nil => simp at hpat
    | cons a b =>
        simp only [List.take, List.take_zero, List.cons.injEq, and_true] at hpat
        exact ⟨b, by rw [hpat]⟩
  induction s with
  | nil => rfl
  | cons c t ih =>
      rw [containsSub]
      have h1 : ((c :: t).take ('$' :: pat').length == '$' :: pat') = false := by
        rw [beq_eq_false_iff_ne]
        intro htk
        simp only [List.length_cons, List.take, List.cons.injEq] at htk
        exact hs (List.mem_cons.mpr (Or.inl htk.1.symm))
      rw [h1, ih fun h => hs (by simp [h])]
      rfl

/-- Replacing the pattern in `p ++ pat ++ q`, where `pat` starts with `$`
and neither `p` nor `q` contains a `$`, replaces exactly the marked
occurrence. -/
theorem strReplace_exact (p q pat rep : Str) (hpat : pat.take 1 = ['$'])
    (hp : '$' ∉ p) (hq : '$' ∉ q) :
    strReplace (p ++ pat ++ q) pat rep = p ++ rep ++ q := by
  have hpatne : pat ≠ [] := by
    intro h
    rw [h] at hpat
    simp at hpat
  rw [List.append_assoc, strReplace_append_free p _ pat rep hpat hp,
    strReplace_head_match q pat rep hpatne,
    strReplace_of_not_contains q pat rep (not_contains_of_no_dollar q pat hpat hq),
    List.append_assoc]

/-- Name evaluation of a template whose name carries exactly one marked
placeholder `${x}` (no other `$` and no stray `}` or newline around it):
the regex finds exactly the variable `x` and the replacement substitutes
its bound value in place. -/
theorem eval_name_single (t : RpTest) (vars : SMap Str) (p x q val : Str)
    (hname : t.name = p ++ '$' :: '{' :: (x ++ '}' :: q))
    (hp : '$' ∉ p) (hxb : '}' ∉ x) (hxn : '\n' ∉ x)
    (hq1 : '$' ∉ q) (hq2 : '}' ∉ q)
    (hval : vars.get x = some val) :
    t.eval_name vars = some (p ++ val ++ q) := by
  have hfind : phFindIter t.name = [x] := by
    rw [hname, phFindIter_append_not_dollar p _ hp, phFindIter_match x q hxb hxn hq2,
      phFindIter_nil_of_no_dollar q hq1]
  rw [RpTest.eval_name, hfind]
  simp only [List.foldlM_cons, List.foldlM_nil, hval, Option.map_some', Option.bind_eq_bind,
    Option.some_bind]
  have hsplit : p ++ '$' :: '{' :: (x ++ '}' :: q) = p ++ phTok x ++ q := by
    simp [phTok, List.append_assoc]
  rw [hname, hsplit, strReplace_exact p q (phTok x) val rfl hp hq1]
  rfl

/-- C5, amended: a test declaration evaluated during loop expansion is
fully resolved provided the bindings are resolving and `$`-free: if the
template's raw name is a literal with one marked `${x}` placeholder whose
variable is bound to a `$`-free value, every whole-token source placeholder
is bound to a `$`-free value, and every other source is `$`-free, then
`RpTest::eval` succeeds and the resulting declaration's name and source
references contain no `$` at all (hence no `${...}` placeholder). -/
theorem c5_eval_fully_resolved (t : RpTest) (vars : SMap Str) (p x q val : Str)
    (hname : t.name = p ++ '$' :: '{' :: (x ++ '}' :: q))
    (hp : '$' ∉ p) (hxb : '}' ∉ x) (hxn : '\n' ∉ x)
    (hq1 : '$' ∉ q) (hq2 : '}' ∉ q)
    (hval : vars.get x = some val) (hvalf : '$' ∉ val)
    (hwhole : ∀ src ∈ t.sources, isWholePh src = true →
      ∃ w, vars.get (phVar src) = some w ∧ '$' ∉ w)
    (hlit : ∀ src ∈ t.sources, isWholePh src = false → '$' ∉ src) :
    ∃ t', t.eval vars = some t' ∧ '$' ∉ t'.name ∧ ∀ s ∈ t'.sources, '$' ∉ s := by
  have hn := eval_name_single t vars p x q val hname hp hxb hxn hq1 hq2 hval
  have hall : ∀ src ∈ t.sources, (evalSrc vars src).isSome := by
    intro src hs
    cases hw : isWholePh src with
    | false => simp [evalSrc, hw]
    | true =>
        obtain ⟨w, hw', -⟩ := hwhole src hs hw
        simp [evalSrc, hw, hw']
  refine ⟨RpTest.mk (p ++ val ++ q)
      (t.sources.image (fun src => (evalSrc vars src).getD src)) t.kind t.tests, ?_, ?_, ?_⟩
  · rw [RpTest.eval, hn, RpTest.eval_source_list, if_pos hall]
    rfl
  · simp only [List.mem_append, not_or]
    exact ⟨⟨hp, hvalf⟩, hq1⟩
  · intro s hs
    obtain ⟨src, hsrc, rfl⟩ := Finset.mem_image.mp hs
    cases hw : isWholePh src with
    | false =>
        have := hlit src hsrc hw
        simpa [evalSrc, hw] using this
    | true =>
        obtain ⟨w, hw', hwfree⟩ := hwhole src hsrc hw
        simpa [evalSrc, hw, hw'] using hwfree

/-- The C5 counterexample input: a test declaration outside any loop whose
raw name carries a placeholder. -/
def c5Input : Str := chars "rp_test(UNIT_TEST BINARY_NAME test_${X} SOURCES a.cc)"

/-- The context the code produces on `c5Input`: the declaration is
installed with the placeholder still inside its name. -/
def c5Expected : ParseContext :=
  ⟨[], [(chars "test_${X}", ⟨chars "test_${X}", {chars "a.cc"}, TestKind.Unit, ∅⟩)]⟩

set_option maxRecDepth 100000 in
/-- C5, counterexample: parsing a lone out-of-loop test declaration named
`test_${X}` succeeds and installs it verbatim: the installed name still
matches the `${...}` placeholder pattern, so not every installed
declaration is fully resolved. -/
theorem c5_counterexample :
    parse_unit c5Input = some c5Expected ∧ phFindIter (chars "test_${X}") ≠ [] := by
  constructor <;> decide

/-- C5 witness: template named `test_${S}` with sources `${S}` and
`lit.cc`, under the binding `S ↦ v.cc`. -/
theorem c5_eval_fully_resolved_witness :
    ∃ t', RpTest.eval ⟨chars "test_${S}", {chars "${S}", chars "lit.cc"}, TestKind.Unit, ∅⟩
        [(chars "S", chars "v.cc")] = some t' ∧
      '$' ∉ t'.name ∧ ∀ s ∈ t'.sources, '$' ∉ s :=
  c5_eval_fully_resolved
    ⟨chars "test_${S}", {chars "${S}", chars "lit.cc"}, TestKind.Unit, ∅⟩
    [(chars "S", chars "v.cc")] (chars "test_") (chars "S") [] (chars "v.cc")
    (by decide) (by decide) (by decide) (by decide) (by decide) (by decide)
    (by decide) (by decide)
    (by
      intro src hs hw
      rcases Finset.mem_insert.mp hs with h | h
      · subst h
        exact ⟨chars "v.cc", by decide, by decide⟩
      · rw [Finset.mem_singleton] at h
        subst h
        exact absurd hw (by decide))
    (by decide)
